import Mathlib

/-!
Shallow embedding of the `rust-kv-store` repository's storage core
(`src/lib.rs`, `RocksDBStore` over an embedded ordered-key store) together
with the Value Envelope byte codec.

The underlying RocksDB database is modelled as an association list of
(key bytes, value bytes) pairs kept sorted by the bytewise (lexicographic)
comparator, which is how RocksDB's iterator presents entries.  Bytes are
natural numbers below 256; machine integers are `Nat`/`Int` with explicit
bounds.  Fallible operations return `Except StoreError` mirroring
`anyhow::Result`.
-/

namespace KvStore

/-- A byte string: list of naturals, each < 256 in well-formed data. -/
abbrev Bytes := List Nat

/-- Big-endian fixed-width byte encoding of `k` on `n` bytes, most
significant byte first.  `beBytes 8 k` models `u64::to_be_bytes`. -/
def beBytes : Nat → Nat → Bytes
  | 0, _ => []
  | n + 1, k => (k / 256 ^ n) % 256 :: beBytes n (k % 256 ^ n)

/-- Models `u64::to_be_bytes`: 8 fixed-width big-endian bytes. -/
def u64.to_be_bytes (k : Nat) : Bytes := beBytes 8 k

/-- Models `u64::from_be_bytes`: fold the bytes most-significant first. -/
def u64.from_be_bytes (bs : Bytes) : Nat :=
  bs.foldl (fun acc b => acc * 256 + b) 0

/-- RocksDB's default bytewise comparator: lexicographic order on byte
strings, a strict prefix sorting before its extensions (memcmp order). -/
def lexCompare : Bytes → Bytes → Ordering
  | [], [] => .eq
  | [], _ :: _ => .lt
  | _ :: _, [] => .gt
  | a :: as, b :: bs =>
    if a < b then .lt else if b < a then .gt else lexCompare as bs

/-- The database state: entries (key bytes, value bytes) in iterator
order, i.e. sorted by `lexCompare` on keys. -/
abbrev Store := List (Bytes × Bytes)

/-- Models `DB::get`: point lookup of the value bytes stored at a key. -/
def dbGet : Store → Bytes → Option Bytes
  | [], _ => none
  | (k', v') :: rest, k => if k = k' then some v' else dbGet rest k

/-- Models `DB::put`: insert or replace, keeping entries in comparator
order. -/
def dbPut : Store → Bytes → Bytes → Store
  | [], k, v => [(k, v)]
  | (k', v') :: rest, k, v =>
    match lexCompare k k' with
    | .lt => (k, v) :: (k', v') :: rest
    | .eq => (k, v) :: rest
    | .gt => (k', v') :: dbPut rest k v

/-- Models `DB::delete`: remove the entry stored at a key, if any. -/
def dbDelete : Store → Bytes → Store
  | [], _ => []
  | (k', v') :: rest, k => if k = k' then rest else (k', v') :: dbDelete rest k

/-- Models `DB::write` on a `WriteBatch` of deletes: all the deletes are
applied in one atomic write. -/
def applyDeleteBatch : List Bytes → Store → Store
  | [], db => db
  | k :: ks, db => applyDeleteBatch ks (dbDelete db k)

/-- The iterator invariant of a reachable database state: entries strictly
increase in the bytewise comparator order (hence keys are distinct). -/
def StoreWF (db : Store) : Prop :=
  db.Pairwise fun a b => lexCompare a.1 b.1 = .lt

/-- Storage-layer error, modelling the `anyhow::Error` produced when a
stored byte sequence fails to decode (`prost::DecodeError`). -/
inductive StoreError where
  | decodeErr : StoreError
deriving DecidableEq, Repr

/-- The `kvstore.Value` protobuf message: the Value Envelope.
`shape`: repeated uint64; `dtype`: i32 enum tag; `size_check`,
`key_check`: uint64; `data`: repeated bytes. -/
structure Value where
  shape : List Nat
  dtype : Int
  size_check : Nat
  key_check : Nat
  data : List Bytes
deriving DecidableEq, Repr

namespace Value

/-- A valid envelope: every integer field fits its wire width and every
payload byte is a byte. -/
def Valid (v : Value) : Prop :=
  v.shape.length < 2 ^ 64 ∧
  (∀ s ∈ v.shape, s < 2 ^ 64) ∧
  -(2 ^ 31) ≤ v.dtype ∧ v.dtype < 2 ^ 31 ∧
  v.size_check < 2 ^ 64 ∧
  v.key_check < 2 ^ 64 ∧
  v.data.length < 2 ^ 64 ∧
  (∀ c ∈ v.data, c.length < 2 ^ 64 ∧ ∀ b ∈ c, b < 256)

instance (v : Value) : Decidable v.Valid := by
  unfold Valid; infer_instance

/-- Two's-complement 4-byte encoding of the i32 `dtype` tag. -/
def encodeI32 (d : Int) : Bytes := beBytes 4 ((d + 2 ^ 32) % 2 ^ 32).toNat

/-- Concatenated 8-byte big-endian encodings of a uint64 sequence. -/
def encodeU64s : List Nat → Bytes
  | [] => []
  | x :: xs => beBytes 8 x ++ encodeU64s xs

/-- Length-prefixed concatenation of the `data` byte chunks. -/
def encodeChunks : List Bytes → Bytes
  | [] => []
  | c :: cs => beBytes 8 c.length ++ c ++ encodeChunks cs

/-- Modelled from the spec: `Value::encode_to_vec`, the deterministic byte
serialization of the Value Envelope.  The prost-generated protobuf codec
(from `kvstore.proto`, generated via `tonic::include_proto!`) is not part
of `src/`; the spec specifies only that encoding is a deterministic byte
serialization with `decode(encode(v)) == v` for all valid `v`, which this
count- and length-prefixed field-by-field encoding realizes. -/
def encode_to_vec (v : Value) : Bytes :=
  beBytes 8 v.shape.length ++ encodeU64s v.shape ++
  encodeI32 v.dtype ++
  beBytes 8 v.size_check ++
  beBytes 8 v.key_check ++
  beBytes 8 v.data.length ++ encodeChunks v.data

/-- Take exactly `n` bytes from the front, failing on short input. -/
def takeBytes : Nat → Bytes → Option (Bytes × Bytes)
  | 0, rest => some ([], rest)
  | _ + 1, [] => none
  | n + 1, b :: rest => (takeBytes n rest).map fun p => (b :: p.1, p.2)

/-- Parse one 8-byte big-endian uint64. -/
def parseU64 (l : Bytes) : Option (Nat × Bytes) :=
  (takeBytes 8 l).map fun p => (u64.from_be_bytes p.1, p.2)

/-- Parse one 4-byte two's-complement i32. -/
def parseI32 (l : Bytes) : Option (Int × Bytes) :=
  (takeBytes 4 l).map fun p =>
    (if u64.from_be_bytes p.1 < 2 ^ 31 then (u64.from_be_bytes p.1 : Int)
     else (u64.from_be_bytes p.1 : Int) - 2 ^ 32, p.2)

/-- Parse `n` consecutive uint64 values. -/
def parseU64s : Nat → Bytes → Option (List Nat × Bytes)
  | 0, l => some ([], l)
  | n + 1, l => do
    let (x, l1) ← parseU64 l
    let (xs, l2) ← parseU64s n l1
    some (x :: xs, l2)

/-- Parse `n` consecutive length-prefixed byte chunks. -/
def parseChunks : Nat → Bytes → Option (List Bytes × Bytes)
  | 0, l => some ([], l)
  | n + 1, l => do
    let (len, l1) ← parseU64 l
    let (c, l2) ← takeBytes len l1
    let (cs, l3) ← parseChunks n l2
    some (c :: cs, l3)

/-- Modelled from the spec: `Value::decode`, inverse of `encode_to_vec`;
fails (corruption / version mismatch) when the bytes do not parse. -/
def decode (l : Bytes) : Option Value := do
  let (nshape, l) ← parseU64 l
  let (shape, l) ← parseU64s nshape l
  let (dtype, l) ← parseI32 l
  let (size_check, l) ← parseU64 l
  let (key_check, l) ← parseU64 l
  let (ndata, l) ← parseU64 l
  let (data, l) ← parseChunks ndata l
  if l = [] then some ⟨shape, dtype, size_check, key_check, data⟩ else none

end Value

namespace RocksDBStore

open Value

/-- Models `RocksDBStore::put` (src/lib.rs:32-48): read the existing value
at the key, decode it (a decode failure returns the error before the write
happens), then write the new value; returns the prior envelope. -/
def put (key : Nat) (value : Value) (db : Store) :
    Except StoreError (Option Value) × Store :=
  let key_bytes := u64.to_be_bytes key
  let value_bytes := value.encode_to_vec
  match dbGet db key_bytes with
  | some existing_bytes =>
    match Value.decode existing_bytes with
    | none => (.error .decodeErr, db)
    | some old_value => (.ok (some old_value), dbPut db key_bytes value_bytes)
  | none => (.ok none, dbPut db key_bytes value_bytes)

/-- Models `RocksDBStore::get` (src/lib.rs:50-60): point lookup; a stored
byte sequence that fails to decode is an error, absence is `none`. -/
def get (key : Nat) (db : Store) : Except StoreError (Option Value) :=
  let key_bytes := u64.to_be_bytes key
  match dbGet db key_bytes with
  | some bytes =>
    match Value.decode bytes with
    | none => .error .decodeErr
    | some value => .ok (some value)
  | none => .ok none

/-- Models `RocksDBStore::delete` (src/lib.rs:62-77): read and decode the
value before deleting (a decode failure returns the error before the
delete happens); returns the removed envelope, `none` when absent. -/
def delete (key : Nat) (db : Store) :
    Except StoreError (Option Value) × Store :=
  let key_bytes := u64.to_be_bytes key
  match dbGet db key_bytes with
  | some bytes =>
    match Value.decode bytes with
    | none => (.error .decodeErr, db)
    | some value => (.ok (some value), dbDelete db key_bytes)
  | none => (.ok none, dbDelete db key_bytes)

/-- Models `RocksDBStore::contains_key` (src/lib.rs:79-82). -/
def contains_key (key : Nat) (db : Store) : Except StoreError Bool :=
  .ok (dbGet db (u64.to_be_bytes key)).isSome

/-- Models `RocksDBStore::len` (src/lib.rs:84-91): full forward scan
counting every entry. -/
def len (db : Store) : Except StoreError Nat :=
  .ok (db.foldl (fun count _ => count + 1) 0)

/-- Models the key-collecting loop of `RocksDBStore::keys`
(src/lib.rs:97-110): keep 8-byte keys decoded big-endian, skip others. -/
def keysScan : Store → List Nat
  | [] => []
  | (key_bytes, _) :: rest =>
    if key_bytes.length = 8 then u64.from_be_bytes key_bytes :: keysScan rest
    else keysScan rest

/-- Models `RocksDBStore::keys` (src/lib.rs:97-110). -/
def keys (db : Store) : Except StoreError (List Nat) :=
  .ok (keysScan db)

/-- Models `RocksDBStore::clear` (src/lib.rs:112-123): full forward scan
collecting every key into one delete batch, applied in a single write. -/
def clear (db : Store) : Except StoreError Unit × Store :=
  let batch := db.map Prod.fst
  (.ok (), applyDeleteBatch batch db)

/-- Sequential `put` calls, stopping at the first error: how a caller
inserts a list of (key, value) pairs with no other mutation. -/
def putSeq : Store → List (Nat × Value) → Except StoreError Unit × Store
  | db, [] => (.ok (), db)
  | db, (k, v) :: rest =>
    match put k v db with
    | (.ok _, db') => putSeq db' rest
    | (.error e, db') => (.error e, db')

end RocksDBStore

/-! ### Big-endian byte encoding: length, round-trip, order preservation -/

theorem beBytes_length (n : Nat) : ∀ k, (beBytes n k).length = n := by
  induction n with
  | zero => intro k; rfl
  | succ n ih => intro k; simp [beBytes, ih]

theorem foldl_beBytes (n : Nat) : ∀ k acc, k < 256 ^ n →
    (beBytes n k).foldl (fun a b => a * 256 + b) acc = acc * 256 ^ n + k := by
  induction n with
  | zero =>
    intro k acc hk
    have : k = 0 := by omega
    subst this
    simp [beBytes]
  | succ n ih =>
    intro k acc hk
    have hE : 0 < 256 ^ n := Nat.pos_pow_of_pos n (by omega)
    have hd : k / 256 ^ n < 256 := by
      rw [Nat.div_lt_iff_lt_mul hE]
      calc k < 256 ^ (n + 1) := hk
        _ = 256 * 256 ^ n := by rw [Nat.pow_succ]; ring
    have hmod : (k / 256 ^ n) % 256 = k / 256 ^ n := Nat.mod_eq_of_lt hd
    have hr : k % 256 ^ n < 256 ^ n := Nat.mod_lt _ hE
    simp only [beBytes, List.foldl_cons, hmod]
    rw [ih _ _ hr]
    have hk' : 256 ^ n * (k / 256 ^ n) + k % 256 ^ n = k := Nat.div_add_mod k (256 ^ n)
    calc (acc * 256 + k / 256 ^ n) * 256 ^ n + k % 256 ^ n
        = acc * 256 ^ (n + 1) + (256 ^ n * (k / 256 ^ n) + k % 256 ^ n) := by
          rw [Nat.pow_succ]; ring
      _ = acc * 256 ^ (n + 1) + k := by rw [hk']

theorem from_be_bytes_beBytes (n k : Nat) (h : k < 256 ^ n) :
    u64.from_be_bytes (beBytes n k) = k := by
  unfold u64.from_be_bytes
  rw [foldl_beBytes n k 0 h]
  simp

theorem lt_of_div_lt_div {a b E : Nat} (h : a / E < b / E) : a < b := by
  by_contra hc
  push_neg at hc
  exact absurd (Nat.div_le_div_right (c := E) hc) (by omega)

theorem lexCompare_beBytes_lt (n : Nat) : ∀ k1 k2, k1 < 256 ^ n → k2 < 256 ^ n →
    (lexCompare (beBytes n k1) (beBytes n k2) = .lt ↔ k1 < k2) := by
  induction n with
  | zero =>
    intro k1 k2 h1 h2
    simp only [beBytes, lexCompare]
    constructor
    · intro hc; cases hc
    · intro hc; omega
  | succ n ih =>
    intro k1 k2 h1 h2
    have hE : 0 < 256 ^ n := Nat.pos_pow_of_pos n (by omega)
    have hd1 : k1 / 256 ^ n < 256 := by
      rw [Nat.div_lt_iff_lt_mul hE]
      calc k1 < 256 ^ (n + 1) := h1
        _ = 256 * 256 ^ n := by rw [Nat.pow_succ]; ring
    have hd2 : k2 / 256 ^ n < 256 := by
      rw [Nat.div_lt_iff_lt_mul hE]
      calc k2 < 256 ^ (n + 1) := h2
        _ = 256 * 256 ^ n := by rw [Nat.pow_succ]; ring
    simp only [beBytes, lexCompare, Nat.mod_eq_of_lt hd1, Nat.mod_eq_of_lt hd2]
    by_cases hlt : k1 / 256 ^ n < k2 / 256 ^ n
    · simp only [if_pos hlt]
      constructor
      · intro _; exact lt_of_div_lt_div hlt
      · intro _; trivial
    · by_cases hgt : k2 / 256 ^ n < k1 / 256 ^ n
      · simp only [if_neg hlt, if_pos hgt]
        constructor
        · intro hc; cases hc
        · intro hc; exact absurd (lt_of_div_lt_div hgt) (by omega)
      · have heq : k1 / 256 ^ n = k2 / 256 ^ n := by omega
        simp only [if_neg hlt, if_neg hgt]
        rw [ih (k1 % 256 ^ n) (k2 % 256 ^ n) (Nat.mod_lt _ hE) (Nat.mod_lt _ hE)]
        have e1 : 256 ^ n * (k1 / 256 ^ n) + k1 % 256 ^ n = k1 := Nat.div_add_mod k1 _
        have e2 : 256 ^ n * (k2 / 256 ^ n) + k2 % 256 ^ n = k2 := Nat.div_add_mod k2 _
        rw [← heq] at e2
        generalize 256 ^ n * (k1 / 256 ^ n) = M at e1 e2
        omega

theorem lexCompare_eq_iff (a : Bytes) : ∀ b, lexCompare a b = .eq ↔ a = b := by
  induction a with
  | nil =>
    intro b
    cases b with
    | nil => simp [lexCompare]
    | cons y ys => simp [lexCompare]
  | cons x xs ih =>
    intro b
    cases b with
    | nil => simp [lexCompare]
    | cons y ys =>
      simp only [lexCompare]
      split_ifs with h1 h2
      · constructor
        · intro hc; cases hc
        · intro hc
          injection hc with hxy _
          exact absurd h1 (by omega)
      · constructor
        · intro hc; cases hc
        · intro hc
          injection hc with hxy _
          exact absurd h2 (by omega)
      · have hxy : x = y := by omega
        subst hxy
        rw [ih ys]
        constructor
        · intro hc; rw [hc]
        · intro hc
          injection hc

theorem lexCompare_self (a : Bytes) : lexCompare a a = .eq :=
  (lexCompare_eq_iff a a).2 rfl

/-! ### Database-level lemmas: get / put / delete / batch -/

theorem dbGet_dbPut_self (db : Store) (k v : Bytes) :
    dbGet (dbPut db k v) k = some v := by
  induction db with
  | nil => simp [dbPut, dbGet]
  | cons e rest ih =>
    obtain ⟨kh, vh⟩ := e
    cases hcmp : lexCompare k kh with
    | lt => simp [dbPut, hcmp, dbGet]
    | eq => simp [dbPut, hcmp, dbGet]
    | gt =>
      have hne : k ≠ kh := by
        intro he
        rw [(lexCompare_eq_iff k kh).2 he] at hcmp
        cases hcmp
      simp [dbPut, hcmp, dbGet, hne, ih]

theorem dbGet_dbPut_ne (db : Store) (k v k' : Bytes) (hne : k' ≠ k) :
    dbGet (dbPut db k v) k' = dbGet db k' := by
  induction db with
  | nil => simp [dbPut, dbGet, hne]
  | cons e rest ih =>
    obtain ⟨kh, vh⟩ := e
    cases hcmp : lexCompare k kh with
    | lt => simp [dbPut, hcmp, dbGet, hne]
    | eq =>
      have heq : k = kh := (lexCompare_eq_iff k kh).1 hcmp
      subst heq
      simp [dbPut, hcmp, dbGet, hne]
    | gt => simp [dbPut, hcmp, dbGet, ih]

theorem dbPut_map_fst_perm (db : Store) (k v : Bytes) (h : dbGet db k = none) :
    ((dbPut db k v).map Prod.fst).Perm (k :: db.map Prod.fst) := by
  induction db with
  | nil => simp [dbPut]
  | cons e rest ih =>
    obtain ⟨kh, vh⟩ := e
    simp only [dbGet] at h
    by_cases hk : k = kh
    · simp [hk] at h
    · simp only [if_neg hk] at h
      cases hcmp : lexCompare k kh with
      | lt => simp [dbPut, hcmp]
      | eq => exact absurd ((lexCompare_eq_iff k kh).1 hcmp) hk
      | gt =>
        simp only [dbPut, hcmp, List.map_cons]
        exact ((ih h).cons kh).trans (List.Perm.swap k kh _)

theorem dbGet_eq_none_iff (db : Store) (k : Bytes) :
    dbGet db k = none ↔ ∀ e ∈ db, e.1 ≠ k := by
  induction db with
  | nil => simp [dbGet]
  | cons e rest ih =>
    obtain ⟨kh, vh⟩ := e
    by_cases hk : k = kh
    · subst hk
      simp [dbGet]
    · simp only [dbGet, if_neg hk, ih]
      constructor
      · intro hall e he
        rcases List.mem_cons.1 he with h | h
        · rw [h]; exact fun hc => hk hc.symm
        · exact hall e h
      · intro hall e he
        exact hall e (List.mem_cons_of_mem _ he)

theorem dbDelete_eq_of_none (db : Store) (k : Bytes) (h : dbGet db k = none) :
    dbDelete db k = db := by
  induction db with
  | nil => rfl
  | cons e rest ih =>
    obtain ⟨kh, vh⟩ := e
    simp only [dbGet] at h
    by_cases hk : k = kh
    · simp [hk] at h
    · simp only [if_neg hk] at h
      simp [dbDelete, hk, ih h]

theorem dbGet_dbDelete_ne (db : Store) (k k' : Bytes) (hne : k' ≠ k) :
    dbGet (dbDelete db k) k' = dbGet db k' := by
  induction db with
  | nil => rfl
  | cons e rest ih =>
    obtain ⟨kh, vh⟩ := e
    by_cases hk : k = kh
    · subst hk
      simp [dbDelete, dbGet, hne]
    · simp [dbDelete, dbGet, hk, ih]

theorem dbGet_dbDelete_self (db : Store) (k : Bytes) (hwf : StoreWF db) :
    dbGet (dbDelete db k) k = none := by
  induction db with
  | nil => rfl
  | cons e rest ih =>
    obtain ⟨kh, vh⟩ := e
    rw [StoreWF, List.pairwise_cons] at hwf
    obtain ⟨hhead, htail⟩ := hwf
    by_cases hk : k = kh
    · subst hk
      simp only [dbDelete, if_pos rfl]
      rw [dbGet_eq_none_iff]
      intro e he hek
      have := hhead e he
      rw [hek] at this
      rw [lexCompare_self] at this
      cases this
    · simp [dbDelete, dbGet, hk, ih htail]

theorem dbDelete_length (db : Store) (k : Bytes) (bs : Bytes)
    (h : dbGet db k = some bs) : (dbDelete db k).length + 1 = db.length := by
  induction db with
  | nil => simp [dbGet] at h
  | cons e rest ih =>
    obtain ⟨kh, vh⟩ := e
    simp only [dbGet] at h
    by_cases hk : k = kh
    · simp [dbDelete, hk]
    · simp only [if_neg hk] at h
      simp [dbDelete, hk, ih h]

theorem applyDeleteBatch_self (db : Store) :
    applyDeleteBatch (db.map Prod.fst) db = [] := by
  induction db with
  | nil => rfl
  | cons e rest ih =>
    obtain ⟨kh, vh⟩ := e
    simp [applyDeleteBatch, dbDelete, ih]

/-! ### Value Envelope codec: round-trip lemmas -/

namespace Value

theorem takeBytes_append (l rest : Bytes) :
    takeBytes l.length (l ++ rest) = some (l, rest) := by
  induction l with
  | nil => rfl
  | cons b bs ih => simp [takeBytes, ih]

theorem takeBytes_of_length (n : Nat) (l rest : Bytes) (h : l.length = n) :
    takeBytes n (l ++ rest) = some (l, rest) := by
  subst h
  exact takeBytes_append l rest

theorem parseU64_append (n : Nat) (rest : Bytes) (h : n < 2 ^ 64) :
    parseU64 (beBytes 8 n ++ rest) = some (n, rest) := by
  unfold parseU64
  rw [takeBytes_of_length 8 _ rest (beBytes_length 8 n)]
  have h' : n < 256 ^ 8 := by norm_num at h ⊢; omega
  simp [from_be_bytes_beBytes 8 n h']

theorem parseI32_append (d : Int) (rest : Bytes) (h1 : -(2 ^ 31) ≤ d)
    (h2 : d < 2 ^ 31) :
    parseI32 (encodeI32 d ++ rest) = some (d, rest) := by
  unfold parseI32 encodeI32
  set m : Nat := ((d + 2 ^ 32) % 2 ^ 32).toNat with hm
  have hmlt : m < 256 ^ 4 := by norm_num [hm]; omega
  rw [takeBytes_of_length 4 _ rest (beBytes_length 4 m)]
  simp only [Option.map_some', from_be_bytes_beBytes 4 m hmlt]
  have hgoal : (if m < 2 ^ 31 then (m : Int) else (m : Int) - 2 ^ 32) = d := by
    split_ifs with hc <;> omega
  rw [hgoal]

theorem parseU64s_append (xs : List Nat) (rest : Bytes)
    (h : ∀ x ∈ xs, x < 2 ^ 64) :
    parseU64s xs.length (encodeU64s xs ++ rest) = some (xs, rest) := by
  induction xs with
  | nil => rfl
  | cons x xs ih =>
    simp only [List.length_cons, encodeU64s, parseU64s, List.append_assoc]
    rw [parseU64_append x _ (h x (List.mem_cons_self x xs))]
    simp only [Option.bind_eq_bind, Option.some_bind]
    rw [ih fun y hy => h y (List.mem_cons_of_mem _ hy)]
    rfl

theorem parseChunks_append (cs : List Bytes) (rest : Bytes)
    (h : ∀ c ∈ cs, c.length < 2 ^ 64) :
    parseChunks cs.length (encodeChunks cs ++ rest) = some (cs, rest) := by
  induction cs with
  | nil => rfl
  | cons c cs ih =>
    simp only [List.length_cons, encodeChunks, parseChunks, List.append_assoc]
    rw [parseU64_append c.length _ (h c (List.mem_cons_self c cs))]
    simp only [Option.bind_eq_bind, Option.some_bind]
    rw [takeBytes_append]
    simp only [Option.some_bind]
    rw [ih fun y hy => h y (List.mem_cons_of_mem _ hy)]
    rfl

theorem decode_encode (v : Value) (hv : v.Valid) :
    Value.decode v.encode_to_vec = some v := by
  obtain ⟨h1, h2, h3, h4, h5, h6, h7, h8⟩ := hv
  unfold Value.decode encode_to_vec
  rw [show encodeChunks v.data = encodeChunks v.data ++ [] from
    (List.append_nil _).symm]
  simp only [List.append_assoc]
  rw [parseU64_append _ _ h1]
  simp only [Option.bind_eq_bind, Option.some_bind]
  rw [parseU64s_append _ _ h2]
  simp only [Option.some_bind]
  rw [parseI32_append _ _ h3 h4]
  simp only [Option.some_bind]
  rw [parseU64_append _ _ h5]
  simp only [Option.some_bind]
  rw [parseU64_append _ _ h6]
  simp only [Option.some_bind]
  rw [parseU64_append _ _ h7]
  simp only [Option.some_bind]
  rw [parseChunks_append _ _ fun c hc => (h8 c hc).1]
  simp

end Value

/-! ### Scan-derived operations: keys and len -/

theorem keysScan_eq_filterMap (db : Store) :
    RocksDBStore.keysScan db = db.filterMap fun e =>
      if e.1.length = 8 then some (u64.from_be_bytes e.1) else none := by
  induction db with
  | nil => rfl
  | cons e rest ih =>
    obtain ⟨kh, vh⟩ := e
    by_cases hk : kh.length = 8 <;>
      simp [RocksDBStore.keysScan, List.filterMap_cons, hk, ih]

theorem keysScan_eq_map (db : Store) (h : ∀ e ∈ db, e.1.length = 8) :
    RocksDBStore.keysScan db = (db.map Prod.fst).map u64.from_be_bytes := by
  induction db with
  | nil => rfl
  | cons e rest ih =>
    obtain ⟨kh, vh⟩ := e
    have hh : kh.length = 8 := h _ (List.mem_cons_self _ _)
    simp only [RocksDBStore.keysScan, if_pos hh, List.map_cons]
    rw [ih fun e he => h e (List.mem_cons_of_mem _ he)]

theorem foldl_count {α : Type} (l : List α) : ∀ n : Nat,
    l.foldl (fun count _ => count + 1) n = n + l.length := by
  induction l with
  | nil => intro n; simp
  | cons x xs ih => intro n; simp [ih]; omega

theorem len_eq (db : Store) : RocksDBStore.len db = .ok db.length := by
  simp [RocksDBStore.len, foldl_count]

/-! ### Sequences of fresh inserts -/

theorem putSeq_fresh (items : List (Nat × Value)) : ∀ db : Store,
    (∀ p ∈ items, dbGet db (u64.to_be_bytes p.1) = none) →
    (items.map fun p => u64.to_be_bytes p.1).Nodup →
    ∃ db', RocksDBStore.putSeq db items = (.ok (), db') ∧
      (db'.map Prod.fst).Perm
        ((items.map fun p => u64.to_be_bytes p.1) ++ db.map Prod.fst) := by
  induction items with
  | nil =>
    intro db _ _
    exact ⟨db, rfl, by simp⟩
  | cons p rest ih =>
    intro db hfresh hnd
    obtain ⟨k, v⟩ := p
    have hk : dbGet db (u64.to_be_bytes k) = none :=
      hfresh _ (List.mem_cons_self _ _)
    rw [List.map_cons, List.nodup_cons] at hnd
    obtain ⟨hnotin, hnd'⟩ := hnd
    have hrun1 : RocksDBStore.putSeq db ((k, v) :: rest) =
        RocksDBStore.putSeq (dbPut db (u64.to_be_bytes k) v.encode_to_vec) rest := by
      simp [RocksDBStore.putSeq, RocksDBStore.put, hk]
    have hfresh' : ∀ q ∈ rest,
        dbGet (dbPut db (u64.to_be_bytes k) v.encode_to_vec)
          (u64.to_be_bytes q.1) = none := by
      intro q hq
      have hne : u64.to_be_bytes q.1 ≠ u64.to_be_bytes k := by
        intro he
        exact hnotin (he ▸ List.mem_map_of_mem (fun p => u64.to_be_bytes p.1) hq)
      rw [dbGet_dbPut_ne _ _ _ _ hne]
      exact hfresh q (List.mem_cons_of_mem _ hq)
    obtain ⟨db', hrun, hperm⟩ := ih _ hfresh' hnd'
    refine ⟨db', by rw [hrun1]; exact hrun, ?_⟩
    simp only [List.map_cons, List.cons_append]
    exact hperm.trans
      ((List.Perm.append_left _ (dbPut_map_fst_perm db _ _ hk)).trans
        List.perm_middle)

theorem contains_key_false_iff (k : Nat) (db : Store)
    (h : RocksDBStore.contains_key k db = .ok false) :
    dbGet db (u64.to_be_bytes k) = none := by
  cases hg : dbGet db (u64.to_be_bytes k) with
  | none => rfl
  | some bs =>
    simp only [RocksDBStore.contains_key, hg] at h
    simp at h

/-! ### Claim theorems -/

/-- C1: for every key `k` and envelopes `v1`, `v2`, a `put(k, v1)` on a
store where `k` is absent returns `None`; the subsequent `put(k, v2)`
returns `Some(v1)`; and `get(k)` afterwards returns `Some(v2)` — the
second put fully replaces the first value. -/
theorem put_replace_semantics (k : Nat) (v1 v2 : Value) (db : Store)
    (habs : RocksDBStore.contains_key k db = .ok false)
    (hv1 : v1.Valid) (hv2 : v2.Valid) :
    ∃ db1 db2,
      RocksDBStore.put k v1 db = (.ok none, db1) ∧
      RocksDBStore.put k v2 db1 = (.ok (some v1), db2) ∧
      RocksDBStore.get k db2 = .ok (some v2) := by
  have hget := contains_key_false_iff k db habs
  refine ⟨dbPut db (u64.to_be_bytes k) v1.encode_to_vec,
    dbPut (dbPut db (u64.to_be_bytes k) v1.encode_to_vec)
      (u64.to_be_bytes k) v2.encode_to_vec, ?_, ?_, ?_⟩
  · simp [RocksDBStore.put, hget]
  · simp [RocksDBStore.put, dbGet_dbPut_self, Value.decode_encode v1 hv1]
  · simp [RocksDBStore.get, dbGet_dbPut_self, Value.decode_encode v2 hv2]

theorem put_replace_semantics_witness :
    RocksDBStore.contains_key 12345 [] = .ok false ∧
    (⟨[2, 2], 1, 16, 12345, [[1, 2, 3, 4, 5, 6, 7, 8]]⟩ : Value).Valid ∧
    (⟨[3], -5, 24, 12345, [[9, 9], [0]]⟩ : Value).Valid ∧
    (∃ db1 db2,
      RocksDBStore.put 12345 ⟨[2, 2], 1, 16, 12345, [[1, 2, 3, 4, 5, 6, 7, 8]]⟩ [] =
        (.ok none, db1) ∧
      RocksDBStore.put 12345 ⟨[3], -5, 24, 12345, [[9, 9], [0]]⟩ db1 =
        (.ok (some ⟨[2, 2], 1, 16, 12345, [[1, 2, 3, 4, 5, 6, 7, 8]]⟩), db2) ∧
      RocksDBStore.get 12345 db2 = .ok (some ⟨[3], -5, 24, 12345, [[9, 9], [0]]⟩)) :=
  ⟨by rfl, by decide, by decide,
    put_replace_semantics 12345 _ _ [] (by rfl) (by decide) (by decide)⟩

/-- C2: immediately after a successful `put(k, v)` with no intervening
mutation, `get(k)` returns `Some(v)` with every envelope field identical
to what was stored. -/
theorem put_then_get (k : Nat) (v : Value) (db : Store) (r : Option Value)
    (db' : Store) (hv : v.Valid)
    (hput : RocksDBStore.put k v db = (.ok r, db')) :
    RocksDBStore.get k db' = .ok (some v) := by
  have hdb' : db' = dbPut db (u64.to_be_bytes k) v.encode_to_vec := by
    cases h : dbGet db (u64.to_be_bytes k) with
    | none =>
      simp only [RocksDBStore.put, h] at hput
      exact (Prod.mk.injEq _ _ _ _ ▸ hput).2.symm
    | some bs =>
      cases hd : Value.decode bs with
      | none => simp [RocksDBStore.put, h, hd] at hput
      | some old =>
        simp only [RocksDBStore.put, h, hd] at hput
        exact (Prod.mk.injEq _ _ _ _ ▸ hput).2.symm
  subst hdb'
  simp [RocksDBStore.get, dbGet_dbPut_self, Value.decode_encode v hv]

theorem put_then_get_witness :
    (⟨[2], 1, 16, 7, [[1, 2]]⟩ : Value).Valid ∧
    RocksDBStore.get 7 (dbPut [] (u64.to_be_bytes 7)
        (Value.encode_to_vec ⟨[2], 1, 16, 7, [[1, 2]]⟩)) =
      .ok (some ⟨[2], 1, 16, 7, [[1, 2]]⟩) :=
  ⟨by decide, put_then_get 7 _ [] none _ (by decide) (by rfl)⟩

/-- C3: the Value Envelope byte serialization round-trips on valid
envelopes, and encoding is deterministic: equal envelopes encode to equal
byte sequences. -/
theorem value_codec_round_trip (v : Value) (hv : v.Valid) :
    Value.decode v.encode_to_vec = some v ∧
    ∀ w : Value, w = v → w.encode_to_vec = v.encode_to_vec :=
  ⟨Value.decode_encode v hv, fun _ hw => by rw [hw]⟩

theorem value_codec_round_trip_witness :
    (⟨[2, 2], 1, 16, 12345, [[1, 2, 3, 4, 5, 6, 7, 8]]⟩ : Value).Valid ∧
    (Value.decode (Value.encode_to_vec ⟨[2, 2], 1, 16, 12345, [[1, 2, 3, 4, 5, 6, 7, 8]]⟩) =
        some ⟨[2, 2], 1, 16, 12345, [[1, 2, 3, 4, 5, 6, 7, 8]]⟩ ∧
      ∀ w : Value, w = ⟨[2, 2], 1, 16, 12345, [[1, 2, 3, 4, 5, 6, 7, 8]]⟩ →
        w.encode_to_vec =
          Value.encode_to_vec ⟨[2, 2], 1, 16, 12345, [[1, 2, 3, 4, 5, 6, 7, 8]]⟩) :=
  ⟨by decide, value_codec_round_trip ⟨[2, 2], 1, 16, 12345, [[1, 2, 3, 4, 5, 6, 7, 8]]⟩ (by decide)⟩

/-- C4: after `clear()` returns successfully the store is empty:
`len() == 0` and `get(k)` is `None` for every key; the removal is one
multi-key delete batch applied in a single write. -/
theorem clear_empties_store (db : Store) :
    RocksDBStore.clear db = (.ok (), []) ∧
    RocksDBStore.len (RocksDBStore.clear db).2 = .ok 0 ∧
    ∀ k, RocksDBStore.get k (RocksDBStore.clear db).2 = .ok none := by
  have hb : applyDeleteBatch (db.map Prod.fst) db = [] := applyDeleteBatch_self db
  refine ⟨?_, ?_, ?_⟩
  · simp [RocksDBStore.clear, hb]
  · simp [RocksDBStore.clear, hb, RocksDBStore.len]
  · intro k
    simp [RocksDBStore.clear, hb, RocksDBStore.get, dbGet]

/-- C5: the 64-bit key encoding is 8 fixed-width big-endian bytes, it
round-trips, and it is order-preserving: numeric order on u64 keys
coincides with lexicographic order on their encodings. -/
theorem key_encoding_order (k1 k2 : Nat) (h1 : k1 < 2 ^ 64) (h2 : k2 < 2 ^ 64) :
    (u64.to_be_bytes k1).length = 8 ∧
    u64.from_be_bytes (u64.to_be_bytes k1) = k1 ∧
    (k1 < k2 ↔ lexCompare (u64.to_be_bytes k1) (u64.to_be_bytes k2) = .lt) := by
  have h1' : k1 < 256 ^ 8 := by norm_num at h1 ⊢; omega
  have h2' : k2 < 256 ^ 8 := by norm_num at h2 ⊢; omega
  exact ⟨beBytes_length 8 k1, from_be_bytes_beBytes 8 k1 h1',
    (lexCompare_beBytes_lt 8 k1 k2 h1' h2').symm⟩

theorem key_encoding_order_witness :
    (3 : Nat) < 2 ^ 64 ∧ (500 : Nat) < 2 ^ 64 ∧
    ((u64.to_be_bytes 3).length = 8 ∧
      u64.from_be_bytes (u64.to_be_bytes 3) = 3 ∧
      ((3 : Nat) < 500 ↔ lexCompare (u64.to_be_bytes 3) (u64.to_be_bytes 500) = .lt)) :=
  ⟨by norm_num, by norm_num, key_encoding_order 3 500 (by norm_num) (by norm_num)⟩

/-- C6: inserting N distinct u64 keys into a fresh empty store makes
`keys()` return exactly those N keys, no duplicates and no omissions,
and `len()` return N. -/
theorem enumeration_completeness (items : List (Nat × Value))
    (hnd : (items.map Prod.fst).Nodup) (hlt : ∀ p ∈ items, p.1 < 2 ^ 64) :
    ∃ db, RocksDBStore.putSeq [] items = (.ok (), db) ∧
      (∃ ks, RocksDBStore.keys db = .ok ks ∧
        ks.Perm (items.map Prod.fst) ∧ ks.Nodup) ∧
      RocksDBStore.len db = .ok items.length := by
  have hinj : ∀ x ∈ items.map Prod.fst, ∀ y ∈ items.map Prod.fst,
      u64.to_be_bytes x = u64.to_be_bytes y → x = y := by
    intro x hx y hy hxy
    obtain ⟨p, hp, hpe⟩ := List.mem_map.1 hx
    obtain ⟨q, hq, hqe⟩ := List.mem_map.1 hy
    have hx' : x < 256 ^ 8 := by
      have := hpe ▸ hlt p hp; norm_num at this ⊢; omega
    have hy' : y < 256 ^ 8 := by
      have := hqe ▸ hlt q hq; norm_num at this ⊢; omega
    calc x = u64.from_be_bytes (u64.to_be_bytes x) :=
          (from_be_bytes_beBytes 8 x hx').symm
      _ = u64.from_be_bytes (u64.to_be_bytes y) := by rw [hxy]
      _ = y := from_be_bytes_beBytes 8 y hy'
  have hnd' : (items.map fun p => u64.to_be_bytes p.1).Nodup := by
    have he : (items.map fun p => u64.to_be_bytes p.1) =
        (items.map Prod.fst).map u64.to_be_bytes := by
      rw [List.map_map]; rfl
    rw [he]
    exact List.Nodup.map_on hinj hnd
  obtain ⟨db, hrun, hperm⟩ := putSeq_fresh items [] (fun p _ => rfl) hnd'
  have hperm' : (db.map Prod.fst).Perm (items.map fun p => u64.to_be_bytes p.1) := by
    simpa using hperm
  have hlen8 : ∀ e ∈ db, e.1.length = 8 := by
    intro e he
    have h1 : e.1 ∈ db.map Prod.fst := List.mem_map_of_mem Prod.fst he
    have h2 : e.1 ∈ items.map fun p => u64.to_be_bytes p.1 := hperm'.mem_iff.1 h1
    obtain ⟨p, hp, hpe⟩ := List.mem_map.1 h2
    rw [← hpe]
    exact beBytes_length 8 _
  have hmap : ((items.map fun p => u64.to_be_bytes p.1).map u64.from_be_bytes) =
      items.map Prod.fst := by
    rw [List.map_map]
    apply List.map_congr_left
    intro p hp
    have hp' : p.1 < 256 ^ 8 := by
      have := hlt p hp; norm_num at this ⊢; omega
    simp only [Function.comp_apply]
    exact from_be_bytes_beBytes 8 p.1 hp'
  have hpk : (RocksDBStore.keysScan db).Perm (items.map Prod.fst) := by
    rw [keysScan_eq_map db hlen8, ← hmap]
    exact hperm'.map u64.from_be_bytes
  refine ⟨db, hrun, ⟨RocksDBStore.keysScan db, rfl, hpk, hpk.nodup_iff.2 (hmap ▸ hnd)⟩, ?_⟩
  rw [len_eq]
  have hl : db.length = items.length := by
    have h1 : db.length = (db.map Prod.fst).length := (List.length_map _ _).symm
    rw [h1, hperm'.length_eq, List.length_map]
  rw [hl]

theorem enumeration_completeness_witness :
    (([(1, (⟨[1], 0, 8, 1, [[3]]⟩ : Value)), (2, ⟨[1], 0, 8, 2, [[4]]⟩)].map Prod.fst).Nodup) ∧
    (∀ p ∈ [((1 : Nat), (⟨[1], 0, 8, 1, [[3]]⟩ : Value)), (2, ⟨[1], 0, 8, 2, [[4]]⟩)],
      p.1 < 2 ^ 64) ∧
    (∃ db, RocksDBStore.putSeq []
        [(1, (⟨[1], 0, 8, 1, [[3]]⟩ : Value)), (2, ⟨[1], 0, 8, 2, [[4]]⟩)] = (.ok (), db) ∧
      (∃ ks, RocksDBStore.keys db = .ok ks ∧
        ks.Perm ([(1, (⟨[1], 0, 8, 1, [[3]]⟩ : Value)), (2, ⟨[1], 0, 8, 2, [[4]]⟩)].map Prod.fst) ∧
        ks.Nodup) ∧
      RocksDBStore.len db = .ok
        [((1 : Nat), (⟨[1], 0, 8, 1, [[3]]⟩ : Value)), (2, ⟨[1], 0, 8, 2, [[4]]⟩)].length) :=
  ⟨by decide, by decide, enumeration_completeness _ (by decide) (by decide)⟩

/-- C7: `delete(k)` returns the stored envelope and removes the entry
when `k` is present; on an absent key it returns `None` without error and
leaves the store (hence `len()`) unchanged. -/
theorem delete_semantics (k : Nat) (db : Store) (hwf : StoreWF db) :
    (RocksDBStore.contains_key k db = .ok false →
      RocksDBStore.delete k db = (.ok none, db) ∧
      RocksDBStore.len (RocksDBStore.delete k db).2 = RocksDBStore.len db) ∧
    (∀ v, RocksDBStore.get k db = .ok (some v) →
      (RocksDBStore.delete k db).1 = .ok (some v) ∧
      RocksDBStore.get k (RocksDBStore.delete k db).2 = .ok none ∧
      RocksDBStore.len (RocksDBStore.delete k db).2 = .ok (db.length - 1)) := by
  constructor
  · intro habs
    have hget := contains_key_false_iff k db habs
    have hdel : dbDelete db (u64.to_be_bytes k) = db := dbDelete_eq_of_none _ _ hget
    constructor
    · simp [RocksDBStore.delete, hget, hdel]
    · simp [RocksDBStore.delete, hget, hdel]
  · intro v hv
    cases hg : dbGet db (u64.to_be_bytes k) with
    | none => simp [RocksDBStore.get, hg] at hv
    | some bs =>
      cases hd : Value.decode bs with
      | none => simp [RocksDBStore.get, hg, hd] at hv
      | some w =>
        have hw : w = v := by
          simp only [RocksDBStore.get, hg, hd, Except.ok.injEq,
            Option.some.injEq] at hv
          exact hv
        refine ⟨?_, ?_, ?_⟩
        · simp [RocksDBStore.delete, hg, hd, hw]
        · simp only [RocksDBStore.delete, hg, hd]
          simp [RocksDBStore.get, dbGet_dbDelete_self db _ hwf]
        · simp only [RocksDBStore.delete, hg, hd]
          rw [len_eq]
          have hlen := dbDelete_length db (u64.to_be_bytes k) bs hg
          have : (dbDelete db (u64.to_be_bytes k)).length = db.length - 1 := by omega
          rw [this]

theorem delete_semantics_witness :
    StoreWF [(u64.to_be_bytes 5, Value.encode_to_vec ⟨[1], 0, 8, 5, [[3]]⟩)] ∧
    ((RocksDBStore.delete 5
        [(u64.to_be_bytes 5, Value.encode_to_vec ⟨[1], 0, 8, 5, [[3]]⟩)]).1 =
        .ok (some ⟨[1], 0, 8, 5, [[3]]⟩) ∧
      RocksDBStore.get 5 (RocksDBStore.delete 5
        [(u64.to_be_bytes 5, Value.encode_to_vec ⟨[1], 0, 8, 5, [[3]]⟩)]).2 = .ok none ∧
      RocksDBStore.len (RocksDBStore.delete 5
        [(u64.to_be_bytes 5, Value.encode_to_vec ⟨[1], 0, 8, 5, [[3]]⟩)]).2 =
        .ok ([(u64.to_be_bytes 5, Value.encode_to_vec ⟨[1], 0, 8, 5, [[3]]⟩)].length - 1)) :=
  ⟨by simp [StoreWF],
    (delete_semantics 5 _ (by simp [StoreWF])).2 _ (by rfl)⟩

/-- C8: `get(k)` on a stored byte sequence that cannot be parsed back
into a Value Envelope surfaces an error to the caller, never `None` or a
silently-dropped result. -/
theorem get_decode_failure (k : Nat) (db : Store) (bs : Bytes)
    (hstored : dbGet db (u64.to_be_bytes k) = some bs)
    (hbad : Value.decode bs = none) :
    RocksDBStore.get k db = .error .decodeErr := by
  simp [RocksDBStore.get, hstored, hbad]

theorem get_decode_failure_witness :
    dbGet [(u64.to_be_bytes 7, [255])] (u64.to_be_bytes 7) = some [255] ∧
    Value.decode [255] = none ∧
    RocksDBStore.get 7 [(u64.to_be_bytes 7, [255])] = .error .decodeErr :=
  ⟨by rfl, by rfl, get_decode_failure 7 _ [255] (by rfl) (by rfl)⟩

/-- C9: `keys()` returns exactly the big-endian decodings of the entries
whose stored key is exactly 8 bytes long; entries with any other key
length are silently excluded, and no error is raised. -/
theorem keys_exactly_eight_byte_entries (db : Store) :
    RocksDBStore.keys db = .ok (db.filterMap fun e =>
      if e.1.length = 8 then some (u64.from_be_bytes e.1) else none) := by
  simp [RocksDBStore.keys, keysScan_eq_filterMap]

/-- C10: when the currently stored bytes at `k` cannot be decoded, both
`put(k, v)` and `delete(k)` return an error and leave the store
unchanged: the decode precedes the write/delete, so the new value is not
written and the corrupt entry is not removed. -/
theorem corrupt_entry_blocks_put_and_delete (k : Nat) (v : Value) (db : Store)
    (bs : Bytes) (hstored : dbGet db (u64.to_be_bytes k) = some bs)
    (hbad : Value.decode bs = none) :
    RocksDBStore.put k v db = (.error .decodeErr, db) ∧
    RocksDBStore.delete k db = (.error .decodeErr, db) := by
  constructor
  · simp [RocksDBStore.put, hstored, hbad]
  · simp [RocksDBStore.delete, hstored, hbad]

theorem corrupt_entry_blocks_put_and_delete_witness :
    dbGet [(u64.to_be_bytes 7, [255])] (u64.to_be_bytes 7) = some [255] ∧
    Value.decode [255] = none ∧
    (RocksDBStore.put 7 ⟨[1], 0, 8, 7, [[3]]⟩ [(u64.to_be_bytes 7, [255])] =
        (.error .decodeErr, [(u64.to_be_bytes 7, [255])]) ∧
      RocksDBStore.delete 7 [(u64.to_be_bytes 7, [255])] =
        (.error .decodeErr, [(u64.to_be_bytes 7, [255])])) :=
  ⟨by rfl, by rfl,
    corrupt_entry_blocks_put_and_delete 7 _ _ [255] (by rfl) (by rfl)⟩

end KvStore
